import Mathlib

/-!
Verification of the commando crate: the `Command`/`Commander` abstractions
(src/lib.rs), the `TimeMachine` history engine (src/time_machine.rs), and the
example commands `Translate` and `Scale` used in the crate's tests.

Machine integers: the context carries an `i32`; we model `i32` values as `Int`
together with explicit saturation to the range `[-2^31, 2^31 - 1]`, mirroring
Rust's `saturating_add` / `saturating_sub` / `saturating_mul`.
-/

/-- Smallest `i32` value, `i32::MIN = -2^31`. -/
def i32Min : Int := -(2 ^ 31)

/-- Largest `i32` value, `i32::MAX = 2^31 - 1`. -/
def i32Max : Int := 2 ^ 31 - 1

/-- Predicate: `x` is representable as an `i32`. -/
def inRangeI32 (x : Int) : Prop := i32Min ≤ x ∧ x ≤ i32Max

instance (x : Int) : Decidable (inRangeI32 x) := by
  unfold inRangeI32; infer_instance

/-- Clamp an integer into the `i32` range, as Rust's saturating ops do. -/
def saturate (x : Int) : Int := max i32Min (min i32Max x)

/-- Rust `a.saturating_add b` on `i32`. -/
def saturatingAdd (a b : Int) : Int := saturate (a + b)

/-- Rust `a.saturating_sub b` on `i32`. -/
def saturatingSub (a b : Int) : Int := saturate (a - b)

/-- Rust `a.saturating_mul b` on `i32`. -/
def saturatingMul (a b : Int) : Int := saturate (a * b)

/-- The test context `struct State(i32)` from src/lib.rs. -/
structure State where
  val : Int
deriving DecidableEq, Repr

/-- `State::value` accessor. -/
def State.value (s : State) : Int := s.val

/-- The test command `struct Translate(i32)` from src/lib.rs. -/
structure Translate where
  amount : Int
deriving DecidableEq, Repr

/-- Method `Translate::execute`: `ctx.0 = ctx.value().saturating_add(self.0)`.
Returns the (unchanged) command together with the mutated context, modelling
`fn execute(&mut self, ctx: &mut State)`. -/
def Translate.execute (t : Translate) (ctx : State) : Translate × State :=
  (t, ⟨saturatingAdd ctx.value t.amount⟩)

/-- Method `Translate::undo`: `ctx.0 = ctx.value().saturating_sub(self.0)`. -/
def Translate.undo (t : Translate) (ctx : State) : Translate × State :=
  (t, ⟨saturatingSub ctx.value t.amount⟩)

/-- The test command `struct Scale(i32, Option<i32>)` from src/lib.rs:
a factor plus optional captured pre-execute context value. -/
structure Scale where
  factor : Int
  saved : Option Int
deriving DecidableEq, Repr

/-- Conversion `impl From<i32> for Scale`: `Self(value, None)`. -/
def Scale.fromInt (value : Int) : Scale := ⟨value, none⟩

/-- Method `Scale::execute`: `self.1.replace(ctx.value()); ctx.0 =
ctx.value().saturating_mul(self.0)`. -/
def Scale.execute (s : Scale) (ctx : State) : Scale × State :=
  (⟨s.factor, some ctx.value⟩, ⟨saturatingMul ctx.value s.factor⟩)

/-- Method `Scale::undo`: `if let Some(prev_state) = self.1.take() { ctx.0 = prev_state; }`.
`take` empties the option; with no captured state the context is untouched. -/
def Scale.undo (s : Scale) (ctx : State) : Scale × State :=
  match s.saved with
  | some prev => (⟨s.factor, none⟩, ⟨prev⟩)
  | none => (s, ctx)

/-- A type-erased command, modelling `Box<dyn Command<T>>`: a hidden state type
`σ` (the concrete command struct), its current value `s`, and the two trait
methods acting on the pair of command state and context. -/
structure Command (T : Type) : Type 1 where
  σ : Type
  s : σ
  exec : σ → T → σ × T
  und : σ → T → σ × T

/-- Calling `Command::execute(&mut self, ctx: &mut T)` on a boxed command:
both the command state and the context are updated. -/
def Command.execute {T : Type} (c : Command T) (x : T) : Command T × T :=
  (⟨c.σ, (c.exec c.s x).1, c.exec, c.und⟩, (c.exec c.s x).2)

/-- Calling `Command::undo(&mut self, ctx: &mut T)` on a boxed command. -/
def Command.undo {T : Type} (c : Command T) (x : T) : Command T × T :=
  (⟨c.σ, (c.und c.s x).1, c.exec, c.und⟩, (c.und c.s x).2)

/-- Erase a `Translate` to a `Box<dyn Command<State>>`. -/
def Translate.toCmd (t : Translate) : Command State :=
  ⟨Translate, t, Translate.execute, Translate.undo⟩

/-- Erase a `Scale` to a `Box<dyn Command<State>>`. -/
def Scale.toCmd (s : Scale) : Command State :=
  ⟨Scale, s, Scale.execute, Scale.undo⟩

/-- Structure `struct TimeMachine<T>` from src/time_machine.rs: the owned context
(`machine`) plus the history `Vec<Box<dyn Command<T>>>`. -/
structure TimeMachine (T : Type) : Type 1 where
  machine : T
  history : List (Command T)

/-- Conversion `impl From<T> for TimeMachine<T>`: wrap a context with an empty
history. -/
def TimeMachine.fromMachine {T : Type} (machine : T) : TimeMachine T :=
  { machine := machine, history := [] }

/-- From `impl Commander<T> for TimeMachine<T>`, `fn execute`: run the command on
the machine, then push it (with its captured state) onto the end of history. -/
def TimeMachine.execute {T : Type} (tm : TimeMachine T) (cmd : Command T) :
    TimeMachine T :=
  { machine := (cmd.execute tm.machine).2,
    history := tm.history ++ [(cmd.execute tm.machine).1] }

/-- From `impl Commander<T> for TimeMachine<T>`, `fn undo`: `if let Some(mut cmd) =
self.history.pop() { cmd.undo(&mut self.machine); }` — pop the last history
entry if any, run its undo on the machine, and discard it. -/
def TimeMachine.undo {T : Type} (tm : TimeMachine T) : TimeMachine T :=
  match tm.history.getLast? with
  | none => tm
  | some cmd =>
      { machine := (cmd.undo tm.machine).2, history := tm.history.dropLast }

/-- Iterated `TimeMachine::undo`. -/
def TimeMachine.undoN {T : Type} : Nat → TimeMachine T → TimeMachine T
  | 0, tm => tm
  | n + 1, tm => TimeMachine.undoN n tm.undo

/-- A bare `Commander` implementation for a context type: the trait has
`execute` (filled in by the `#[derive(Commander)]` macro in
stratagem-macros/src/lib.rs as `cmd.execute(self)`) and `undo`, whose trait
default body in src/lib.rs is empty: `fn undo(&mut self) {}`. -/
structure CommanderImpl (T : Type) : Type 1 where
  execute : T → Command T → T
  undo : T → T := fun x => x

/-- The `Commander` implementation the derive macro produces for a bare
context type: `execute` delegates to the command, `undo` is the trait
default no-op. -/
def derivedCommander (T : Type) : CommanderImpl T :=
  { execute := fun x c => (c.execute x).2 }

/-- One step of a client interaction with a `TimeMachine`: either a call to
`execute` with some command, or a call to `undo`. -/
inductive Op (T : Type) : Type 1 where
  | exec : Command T → Op T
  | undo : Op T

/-- Run a sequence of client calls against a `TimeMachine`, left to right. -/
def runOps {T : Type} (tm : TimeMachine T) : List (Op T) → TimeMachine T
  | [] => tm
  | Op.exec c :: rest => runOps (tm.execute c) rest
  | Op.undo :: rest => runOps tm.undo rest

/-- Number of `execute` calls in a trace. -/
def countExec {T : Type} : List (Op T) → Nat
  | [] => 0
  | Op.exec _ :: rest => countExec rest + 1
  | Op.undo :: rest => countExec rest

/-- Number of `undo` calls in a trace. -/
def countUndo {T : Type} : List (Op T) → Nat
  | [] => 0
  | Op.exec _ :: rest => countUndo rest
  | Op.undo :: rest => countUndo rest + 1

/-- LIFO-consistency of a trace, relative to a starting history depth: every
`undo` happens while the (conceptual) history is non-empty. -/
def okTrace {T : Type} : Nat → List (Op T) → Bool
  | _, [] => true
  | d, Op.exec _ :: rest => okTrace (d + 1) rest
  | d, Op.undo :: rest => d != 0 && okTrace (d - 1) rest

/-- Replay a stored history front-to-back from a starting context, calling each
stored entry's `execute` in order, and return the resulting context. -/
def replay {T : Type} (x : T) (h : List (Command T)) : T :=
  h.foldl (fun m c => (c.execute m).2) x

/-- A command is well-behaved for history reconstruction: from any command
state and context, (1) re-running `execute` with the state it just captured
produces the same context effect, and (2) running `undo` with the captured
state on the post-execute context restores the pre-execute context exactly. -/
def goodCmd {T : Type} (c : Command T) : Prop :=
  ∀ (s : c.σ) (x : T),
    (c.exec (c.exec s x).1 x).2 = (c.exec s x).2
    ∧ (c.und (c.exec s x).1 ((c.exec s x).2)).2 = x

/-- All commands executed in a trace are well-behaved. -/
def goodOps {T : Type} : List (Op T) → Prop
  | [] => True
  | Op.exec c :: rest => goodCmd c ∧ goodOps rest
  | Op.undo :: rest => goodOps rest

/-- Reconstruction invariant tying a history to the current context: the
history was built by appending entries, each stored entry replays from the
context it was recorded at to the context recorded after it, and each stored
entry's `undo` maps the latter back to the former. -/
inductive HistInv {T : Type} (x0 : T) : List (Command T) → T → Prop where
  | nil : HistInv x0 [] x0
  | snoc : ∀ (h : List (Command T)) (x : T) (c : Command T) (m : T),
      HistInv x0 h x →
      (c.exec c.s x).2 = m →
      (c.und c.s m).2 = x →
      HistInv x0 (h ++ [c]) m

section Helpers

/-- Saturation is the identity on representable values. -/
theorem saturate_of_inRange {z : Int} (h : inRangeI32 z) : saturate z = z := by
  unfold saturate
  rw [min_eq_right h.2, max_eq_right h.1]

/-- Saturation always lands in the representable range. -/
theorem inRange_saturate (z : Int) : inRangeI32 (saturate z) := by
  unfold inRangeI32 saturate
  exact ⟨le_max_left _ _, max_le (by decide) (min_le_left _ _)⟩

/-- Popping from an empty history leaves the machine untouched. -/
theorem undo_of_empty {T : Type} (tm : TimeMachine T) (h : tm.history = []) :
    tm.undo = tm := by
  cases tm with
  | mk m hist =>
    simp only at h
    subst h
    rfl

/-- Popping from a non-empty history removes the last entry and runs its undo. -/
theorem undo_concat {T : Type} (m : T) (h : List (Command T)) (c : Command T) :
    TimeMachine.undo ⟨m, h ++ [c]⟩ = ⟨(c.undo m).2, h⟩ := by
  unfold TimeMachine.undo
  simp

/-- Scale commands are well-behaved for history reconstruction: the context
effect depends only on the factor, which execute never changes, and undo
restores the captured pre-execute value exactly. -/
theorem scale_goodCmd (f : Int) (o : Option Int) : goodCmd (Scale.mk f o).toCmd := by
  intro s x
  exact ⟨rfl, rfl⟩

end Helpers

/-- Claim C2: `TimeMachine::execute(cmd)` runs `cmd.execute` on the owned
context, pushes the post-execute command (with its captured undo state) onto
the tail of the history, and the history length grows by exactly one. -/
theorem timeMachine_execute_spec {T : Type} (tm : TimeMachine T) (cmd : Command T) :
    (tm.execute cmd).machine = (cmd.execute tm.machine).2
    ∧ (tm.execute cmd).history = tm.history ++ [(cmd.execute tm.machine).1]
    ∧ (tm.execute cmd).history.length = tm.history.length + 1 := by
  refine ⟨rfl, rfl, ?_⟩
  simp [TimeMachine.execute]

/-- Claim C3: on a `TimeMachine` with empty history, any number of `undo`
calls changes neither the owned context nor the history length. -/
theorem timeMachine_empty_undo_noop {T : Type} (tm : TimeMachine T)
    (h : tm.history = []) (n : Nat) :
    (TimeMachine.undoN n tm).machine = tm.machine
    ∧ (TimeMachine.undoN n tm).history.length = tm.history.length := by
  have key : TimeMachine.undoN n tm = tm := by
    induction n with
    | zero => rfl
    | succ k ih =>
      show TimeMachine.undoN k tm.undo = tm
      rw [undo_of_empty tm h]
      exact ih
  rw [key]
  exact ⟨rfl, rfl⟩

/-- Witness for C3 at a concrete machine and three undo calls. -/
theorem timeMachine_empty_undo_noop_witness :
    (TimeMachine.fromMachine (⟨42⟩ : State)).history = []
    ∧ ((TimeMachine.undoN 3 (TimeMachine.fromMachine (⟨42⟩ : State))).machine
          = (TimeMachine.fromMachine (⟨42⟩ : State)).machine
        ∧ (TimeMachine.undoN 3 (TimeMachine.fromMachine (⟨42⟩ : State))).history.length
          = (TimeMachine.fromMachine (⟨42⟩ : State)).history.length) :=
  ⟨rfl, timeMachine_empty_undo_noop (TimeMachine.fromMachine (⟨42⟩ : State)) rfl 3⟩

/-- Counterexample to claim C1 as stated: at the maximum `i32` context,
executing `Translate(1)` saturates, and the immediately following undo yields
`i32::MAX - 1`, not the pre-execute value `i32::MAX`. -/
theorem round_trip_cex_translate_saturation :
    (((Translate.mk 1).execute ⟨i32Max⟩).1.undo
        ((Translate.mk 1).execute ⟨i32Max⟩).2).2
      ≠ (⟨i32Max⟩ : State) := by
  decide

/-- Claim C1 (amended): executing then immediately undoing restores the
context exactly — for `Translate` whenever the pre-execute value and the
translated value are both representable (no saturation), and for `Scale`
unconditionally (its undo restores the captured pre-execute value). -/
theorem translate_scale_round_trip :
    (∀ (a x : Int), inRangeI32 x → inRangeI32 (x + a) →
      (((Translate.mk a).execute ⟨x⟩).1.undo
          ((Translate.mk a).execute ⟨x⟩).2).2 = ⟨x⟩)
    ∧ (∀ (f : Int) (o : Option Int) (x : State),
      (((Scale.mk f o).execute x).1.undo ((Scale.mk f o).execute x).2).2 = x) := by
  constructor
  · intro a x hx hxa
    simp only [Translate.execute, Translate.undo, State.value, saturatingAdd,
      saturatingSub]
    rw [saturate_of_inRange hxa]
    rw [add_sub_cancel_right]
    rw [saturate_of_inRange hx]
  · intro f o x
    rfl

/-- Witness for C1 (amended) at `a = 3`, `x = 5`. -/
theorem translate_scale_round_trip_witness :
    inRangeI32 5 ∧ inRangeI32 (5 + 3)
    ∧ (((Translate.mk 3).execute ⟨5⟩).1.undo
          ((Translate.mk 3).execute ⟨5⟩).2).2 = (⟨5⟩ : State) :=
  ⟨by decide, by decide,
    translate_scale_round_trip.1 3 5 (by decide) (by decide)⟩

/-- Claim C7: example-command arithmetic saturates: `Translate(1)` at the
maximum `i32` leaves the value clamped at the maximum, and the results of
Translate's sum and difference and Scale's product always lie in the
representable `i32` range. -/
theorem saturation_clamps :
    ((Translate.mk 1).execute ⟨i32Max⟩).2 = ⟨i32Max⟩
    ∧ (∀ (a : Int) (x : State), inRangeI32 ((Translate.mk a).execute x).2.val)
    ∧ (∀ (a : Int) (x : State), inRangeI32 ((Translate.mk a).undo x).2.val)
    ∧ (∀ (f : Int) (o : Option Int) (x : State),
        inRangeI32 ((Scale.mk f o).execute x).2.val) := by
  refine ⟨by decide, ?_, ?_, ?_⟩
  · intro a x
    exact inRange_saturate _
  · intro a x
    exact inRange_saturate _
  · intro f o x
    exact inRange_saturate _

/-- Counterexample to claim C8 as stated: a freshly constructed
`Translate(5)` that has never executed, undone on context value `10`,
changes the context (to `5`). -/
theorem fresh_undo_cex_translate :
    ((Translate.mk 5).undo ⟨10⟩).2 ≠ (⟨10⟩ : State) := by
  decide

/-- Claim C8 (amended): a freshly constructed `Scale` (no captured scratch
state, `saved = None`) undoes as an exact no-op, leaving command and context
untouched; `Translate`'s undo, by contrast, unconditionally applies the
saturating subtraction, whether or not execute ever ran, and so can change
the context. -/
theorem fresh_undo_behavior :
    (∀ (f : Int) (x : State), (Scale.fromInt f).undo x = (Scale.fromInt f, x))
    ∧ (∀ (a : Int) (x : State),
        ((Translate.mk a).undo x).2 = ⟨saturatingSub x.val a⟩) := by
  constructor
  · intro f x
    rfl
  · intro a x
    rfl

/-- Claim C9: the default `Commander::undo` — inherited unchanged by the
implementation that the `Commander` derive produces for a bare context type,
which only fills in `execute` — is a no-op on the context. -/
theorem default_undo_noop : ∀ (T : Type) (x : T), (derivedCommander T).undo x = x :=
  fun _ _ => rfl

/-- Claim C10: `Scale::undo` consumes its captured scratch state via `take`:
after one execute and one undo, the internal option is empty, and a second
consecutive undo leaves the context value unchanged. -/
theorem scale_undo_consumes_state :
    ∀ (f : Int) (o : Option Int) (x : State),
      (((Scale.mk f o).execute x).1.undo ((Scale.mk f o).execute x).2).1.saved = none
      ∧ ((((Scale.mk f o).execute x).1.undo ((Scale.mk f o).execute x).2).1.undo
            (((Scale.mk f o).execute x).1.undo ((Scale.mk f o).execute x).2).2).2
          = (((Scale.mk f o).execute x).1.undo ((Scale.mk f o).execute x).2).2 := by
  intro f o x
  exact ⟨rfl, rfl⟩

/-- Claim C5: strict LIFO undo order. Executing commands `A`, then `B`, then
`C` on a fresh TimeMachine records history `[A', B', C']` (primes are the
post-execute commands); the three subsequent undo calls pop and reverse `C'`,
then `B'`, then `A'`, in exactly that order, leaving an empty history. -/
theorem undo_lifo_order {T : Type} (x0 : T) (A B C : Command T) :
    let x1 := (A.execute x0).2
    let x2 := (B.execute x1).2
    let x3 := (C.execute x2).2
    let A1 := (A.execute x0).1
    let B1 := (B.execute x1).1
    let C1 := (C.execute x2).1
    let tm3 := (((TimeMachine.fromMachine x0).execute A).execute B).execute C
    tm3.history = [A1, B1, C1]
    ∧ tm3.machine = x3
    ∧ tm3.undo.history = [A1, B1]
    ∧ tm3.undo.machine = (C1.undo x3).2
    ∧ tm3.undo.undo.history = [A1]
    ∧ tm3.undo.undo.machine = (B1.undo (C1.undo x3).2).2
    ∧ tm3.undo.undo.undo.history = []
    ∧ tm3.undo.undo.undo.machine = (A1.undo (B1.undo (C1.undo x3).2).2).2 := by
  exact ⟨rfl, rfl, rfl, rfl, rfl, rfl, rfl, rfl⟩

/-- Generalized history-depth bookkeeping: running a LIFO-consistent trace
from any starting TimeMachine adds one history entry per execute and removes
one per undo. -/
theorem runOps_length {T : Type} :
    ∀ (ops : List (Op T)) (tm : TimeMachine T),
      okTrace tm.history.length ops = true →
      (runOps tm ops).history.length + countUndo ops
        = tm.history.length + countExec ops := by
  intro ops
  induction ops with
  | nil =>
    intro tm _
    simp [runOps, countExec, countUndo]
  | cons op rest ih =>
    intro tm h
    cases op with
    | exec c =>
      have hlen : (tm.execute c).history.length = tm.history.length + 1 := by
        simp [TimeMachine.execute]
      have h2 : okTrace (tm.execute c).history.length rest = true := by
        rw [hlen]
        exact h
      have key := ih (tm.execute c) h2
      rw [hlen] at key
      show (runOps (tm.execute c) rest).history.length + countUndo rest
          = tm.history.length + (countExec rest + 1)
      omega
    | undo =>
      rcases List.eq_nil_or_concat tm.history with hnil | ⟨l, c, hl⟩
      · rw [hnil] at h
        exact absurd h (by simp [okTrace])
      · cases tm with
        | mk m hist =>
          simp only at hl
          subst hl
          simp only [List.concat_eq_append] at h ⊢
          have hsplit : ((l ++ [c]).length != 0 && okTrace ((l ++ [c]).length - 1) rest)
              = true := h
          rw [Bool.and_eq_true] at hsplit
          have htail : okTrace l.length rest = true := by
            have := hsplit.2
            simpa using this
          have key := ih ⟨(c.undo m).2, l⟩ htail
          show (runOps (TimeMachine.undo ⟨m, l ++ [c]⟩) rest).history.length
                + (countUndo rest + 1)
              = (l ++ [c]).length + countExec rest
          rw [undo_concat]
          simp only [List.length_append, List.length_cons, List.length_nil] at key ⊢
          omega

/-- In a LIFO-consistent trace relative to starting depth `d`, undos never
outnumber executes plus the starting depth. -/
theorem okTrace_undo_le {T : Type} :
    ∀ (o : List (Op T)) (d : Nat), okTrace d o = true →
      countUndo o ≤ d + countExec o := by
  intro o
  induction o with
  | nil =>
    intro d _
    simp [countUndo, countExec]
  | cons op rest ihr =>
    intro d hd
    cases op with
    | exec c =>
      have := ihr (d + 1) hd
      show countUndo rest ≤ d + (countExec rest + 1)
      omega
    | undo =>
      have h2 : (d != 0 && okTrace (d - 1) rest) = true := hd
      rw [Bool.and_eq_true] at h2
      have hd0 : d ≠ 0 := by simpa using h2.1
      have := ihr (d - 1) h2.2
      show countUndo rest + 1 ≤ d + countExec rest
      omega

/-- Claim C4: for a TimeMachine constructed with an empty history, after any
LIFO-consistent interleaving of executes and undos, the number of undos is at
most the number of executes and the history length is their difference. -/
theorem history_depth_invariant {T : Type} (x0 : T) (ops : List (Op T))
    (h : okTrace 0 ops = true) :
    countUndo ops ≤ countExec ops
    ∧ (runOps (TimeMachine.fromMachine x0) ops).history.length
        = countExec ops - countUndo ops := by
  have hstart : (TimeMachine.fromMachine x0).history.length = 0 := rfl
  have key := runOps_length ops (TimeMachine.fromMachine x0) (by rw [hstart]; exact h)
  rw [hstart] at key
  have hle := okTrace_undo_le ops 0 h
  omega

/-- Witness for C4 on the concrete trace execute, execute, undo over `State`. -/
theorem history_depth_invariant_witness :
    okTrace 0 [Op.exec (Translate.mk 5).toCmd, Op.exec (Translate.mk 10).toCmd,
        Op.undo] = true
    ∧ (countUndo [Op.exec (Translate.mk 5).toCmd, Op.exec (Translate.mk 10).toCmd,
          Op.undo]
        ≤ countExec [Op.exec (Translate.mk 5).toCmd, Op.exec (Translate.mk 10).toCmd,
          Op.undo]
      ∧ (runOps (TimeMachine.fromMachine (⟨0⟩ : State))
            [Op.exec (Translate.mk 5).toCmd, Op.exec (Translate.mk 10).toCmd,
              Op.undo]).history.length
          = countExec [Op.exec (Translate.mk 5).toCmd,
                Op.exec (Translate.mk 10).toCmd, Op.undo]
            - countUndo [Op.exec (Translate.mk 5).toCmd,
                Op.exec (Translate.mk 10).toCmd, Op.undo]) :=
  ⟨rfl, history_depth_invariant (⟨0⟩ : State) _ rfl⟩

/-- Replaying a history that ends in `c` replays the front, then runs `c`. -/
theorem replay_append_one {T : Type} (x : T) (h : List (Command T)) (c : Command T) :
    replay x (h ++ [c]) = (c.execute (replay x h)).2 := by
  unfold replay
  rw [List.foldl_append]
  rfl

/-- The reconstruction invariant implies that replaying the history from the
initial context reproduces the current context. -/
theorem HistInv.replay_eq {T : Type} {x0 : T} {h : List (Command T)} {m : T}
    (hi : HistInv x0 h m) : replay x0 h = m := by
  induction hi with
  | nil => rfl
  | snoc h x c m hinv hexec hund ih =>
    rw [replay_append_one, ih]
    exact hexec

/-- Inversion of the reconstruction invariant at a non-empty history. -/
theorem HistInv.concat_inv {T : Type} {x0 : T} {l : List (Command T)}
    {c : Command T} {m : T} (hi : HistInv x0 (l ++ [c]) m) :
    ∃ x, HistInv x0 l x ∧ (c.exec c.s x).2 = m ∧ (c.und c.s m).2 = x := by
  generalize hL : l ++ [c] = L at hi
  cases hi with
  | nil => exact absurd hL (by simp)
  | snoc h x c2 m2 hinv hexec hund =>
    obtain ⟨hl, hc⟩ := List.append_inj' hL rfl
    have hc2 : c = c2 := by
      simpa using hc
    subst hl
    subst hc2
    exact ⟨x, hinv, hexec, hund⟩

/-- `TimeMachine::execute` with a well-behaved command preserves the
reconstruction invariant. -/
theorem HistInv.execute_preserved {T : Type} {x0 : T} {tm : TimeMachine T}
    (hi : HistInv x0 tm.history tm.machine) {c : Command T} (hc : goodCmd c) :
    HistInv x0 (tm.execute c).history (tm.execute c).machine := by
  have hgood := hc c.s tm.machine
  exact HistInv.snoc tm.history tm.machine ((c.execute tm.machine).1)
    ((c.execute tm.machine).2) hi hgood.1 hgood.2

/-- `TimeMachine::undo` preserves the reconstruction invariant. -/
theorem HistInv.undo_preserved {T : Type} {x0 : T} {tm : TimeMachine T}
    (hi : HistInv x0 tm.history tm.machine) :
    HistInv x0 tm.undo.history tm.undo.machine := by
  rcases List.eq_nil_or_concat tm.history with hnil | ⟨l, c, hl⟩
  · rw [undo_of_empty tm hnil]
    exact hi
  · cases tm with
    | mk m hist =>
      simp only at hl
      simp only [List.concat_eq_append] at hl
      subst hl
      rw [undo_concat]
      simp only at hi
      obtain ⟨x, hxinv, _, hund⟩ := HistInv.concat_inv hi
      have : (c.undo m).2 = x := hund
      simp only [this]
      exact hxinv

/-- Running any trace of well-behaved commands preserves the reconstruction
invariant. -/
theorem HistInv.runOps_preserved {T : Type} :
    ∀ (ops : List (Op T)) (tm : TimeMachine T) (x0 : T),
      HistInv x0 tm.history tm.machine → goodOps ops →
      HistInv x0 (runOps tm ops).history (runOps tm ops).machine := by
  intro ops
  induction ops with
  | nil =>
    intro tm x0 hi _
    exact hi
  | cons op rest ih =>
    intro tm x0 hi hg
    cases op with
    | exec c => exact ih (tm.execute c) x0 (HistInv.execute_preserved hi hg.1) hg.2
    | undo => exact ih tm.undo x0 (HistInv.undo_preserved hi) hg

/-- Counterexample to claim C6 as stated: starting a TimeMachine at the
maximum `i32`, executing `Translate(1)` (which saturates) and then undoing it
leaves an empty history whose replay gives `i32::MAX`, while the machine is at
`i32::MAX - 1`. -/
theorem context_reconstruction_cex :
    replay (⟨i32Max⟩ : State)
        (runOps (TimeMachine.fromMachine ⟨i32Max⟩)
          [Op.exec (Translate.mk 1).toCmd, Op.undo]).history
      ≠ (runOps (TimeMachine.fromMachine (⟨i32Max⟩ : State))
          [Op.exec (Translate.mk 1).toCmd, Op.undo]).machine := by
  decide

/-- Claim C6 (amended): at every point of any execute/undo sequence whose
executed commands are well-behaved (their context effect is stable under the
state captured by execute, and undo with that captured state exactly reverses
execute — as is the case for `Scale`, but not for `Translate` at saturation),
replaying the surviving history entries in order from the initial context
yields the TimeMachine's current context. -/
theorem context_reconstruction_good {T : Type} (x0 : T) (ops : List (Op T))
    (hg : goodOps ops) :
    replay x0 (runOps (TimeMachine.fromMachine x0) ops).history
      = (runOps (TimeMachine.fromMachine x0) ops).machine :=
  HistInv.replay_eq (HistInv.runOps_preserved ops (TimeMachine.fromMachine x0) x0
    HistInv.nil hg)

/-- Witness for C6 (amended) on the concrete trace execute `Scale(2)`,
execute `Scale(3)`, undo, starting from context value `7`. -/
theorem context_reconstruction_good_witness :
    goodOps [Op.exec (Scale.fromInt 2).toCmd, Op.exec (Scale.fromInt 3).toCmd,
        Op.undo]
    ∧ replay (⟨7⟩ : State)
        (runOps (TimeMachine.fromMachine ⟨7⟩)
          [Op.exec (Scale.fromInt 2).toCmd, Op.exec (Scale.fromInt 3).toCmd,
            Op.undo]).history
      = (runOps (TimeMachine.fromMachine (⟨7⟩ : State))
          [Op.exec (Scale.fromInt 2).toCmd, Op.exec (Scale.fromInt 3).toCmd,
            Op.undo]).machine :=
  ⟨⟨scale_goodCmd 2 none, scale_goodCmd 3 none, trivial⟩,
    context_reconstruction_good (⟨7⟩ : State) _
      ⟨scale_goodCmd 2 none, scale_goodCmd 3 none, trivial⟩⟩
